import Mathlib

/-!
A shallow embedding of the dice-expression parser and roller of the
`level23archbard/lxs-dice` repository (file `parser.ts`, the revision with
`maximumDiceCount` support).

Modelling conventions:
* JavaScript numbers are modelled as `ℚ`.  All values reachable from the
  parser are decimal literals and the arithmetic on them is `+ - * /`;
  floating-point rounding is not modelled, and division by zero (which JS
  maps to `Infinity`) is outside the model (the spec itself flags the
  divide-by-zero behaviour as an open question).
* Strings are handled as `List Char`; tokens are `List Char` values.
* `Math.random()` is modelled as a stream `g : ℕ → ℚ` of samples together
  with a cursor index; each die roll consumes one sample.  Facts that rely
  on the samples lying in `[0, 1)` take that as an explicit hypothesis.
* JS regex classes `\w`, `\d`, `\s` and `toLowerCase` are modelled over the
  ASCII range, which is all the source relies on.
* Exceptions are modelled with `Except DiceParserError`.
-/

namespace LxsDice

/-- Models the JS regex test `/\d/.test(c)`: an ASCII digit `0`–`9`. -/
def isDigitChar (c : Char) : Bool := decide (48 ≤ c.toNat ∧ c.toNat ≤ 57)

/-- Models the JS regex test `/\w/.test(c)`: ASCII alphanumeric or `_`. -/
def isWordChar (c : Char) : Bool :=
  isDigitChar c || decide (65 ≤ c.toNat ∧ c.toNat ≤ 90)
    || decide (97 ≤ c.toNat ∧ c.toNat ≤ 122) || decide (c = '_')

/-- Models JS `\s` for the characters the source can meet: space, tab, LF, CR. -/
def isWsChar (c : Char) : Bool :=
  decide (c.toNat = 32 ∨ c.toNat = 9 ∨ c.toNat = 10 ∨ c.toNat = 13)

/-- Models `String.prototype.toLowerCase` on one ASCII character. -/
def jsCharToLower (c : Char) : Char :=
  if 65 ≤ c.toNat ∧ c.toNat ≤ 90 then Char.ofNat (c.toNat + 32) else c

/-- The arithmetic operator stored in an `InfixArithmeticExpression`
(`'+' | '-' | '*' | '/'` in the source). -/
inductive ArithOp where
  | add
  | sub
  | mul
  | div
deriving DecidableEq

/-- The `DiceExpression` class hierarchy of the source, as a closed inductive:
`NumericalExpression(value)`, `DiceRollExpression(size)`,
`CountedDiceRollExpression(count, dice)` whose wrapped `DiceRollExpression`
is represented by its `size` field, and `InfixArithmeticExpression(left,
right, operator)`. -/
inductive DiceExpression where
  | numerical (value : ℚ)
  | diceRoll (size : ℚ)
  | countedDiceRoll (count : ℚ) (size : ℚ)
  | arithmetic (left : DiceExpression) (right : DiceExpression) (op : ArithOp)
deriving DecidableEq

/-- The `DiceRolled` record of the source.  The optional `isMax`/`isMin`
flags become `Bool` fields defaulting to `false` (unset). -/
structure DiceRolled where
  size : ℚ
  value : ℚ
  isMax : Bool := false
  isMin : Bool := false
deriving DecidableEq

/-- The `DiceResult`/`AccumulatedResult` of the source. -/
structure DiceResult where
  value : ℚ
  diceRolled : List DiceRolled
deriving DecidableEq

/-- The sampled value of one die: `Math.floor(Math.random() * size) + 1`
with `x` the `Math.random()` sample. -/
def dieValue (size x : ℚ) : ℚ := (⌊x * size⌋ : ℤ) + 1

/-- The `DiceRolled` record built by `DiceRollExpression.roll`: `isMax` is
set when `value === size`, otherwise `isMin` is set when `value === 1`. -/
def dieRecord (size x : ℚ) : DiceRolled :=
  let v := dieValue size x
  if v = size then { size := size, value := v, isMax := true }
  else if v = 1 then { size := size, value := v, isMin := true }
  else { size := size, value := v }

/-- `DiceRollExpression.roll`: one sample is drawn from the stream, the
cursor advances by one. -/
def rollDie (size : ℚ) (g : ℕ → ℚ) (idx : ℕ) : DiceResult × ℕ :=
  (⟨dieValue size (g idx), [dieRecord size (g idx)]⟩, idx + 1)

/-- The `for (let i = 1; i < this.count; i++)` accumulation loop of
`CountedDiceRollExpression.roll`.  `i` is the JS loop counter (a natural
number compared against the possibly fractional `count`). -/
def countedLoop (size count : ℚ) (g : ℕ → ℚ) (i : ℕ) (acc : DiceResult)
    (idx : ℕ) : DiceResult × ℕ :=
  if h : (i : ℚ) < count then
    let next := rollDie size g idx
    countedLoop size count g (i + 1)
      ⟨acc.value + next.1.value, acc.diceRolled ++ next.1.diceRolled⟩ next.2
  else (acc, idx)
termination_by (⌈count⌉).toNat - i
decreasing_by
  have h1 : (i : ℤ) < ⌈count⌉ := by
    rw [Int.lt_ceil]
    push_cast
    exact h
  have h2 : i < (⌈count⌉).toNat := by
    rw [Int.lt_toNat]
    exact h1
  omega

/-- `DiceExpression.roll` for each node variant.  Pair destructuring in the
source is modelled with `.1`/`.2` projections. -/
def rollExpr : DiceExpression → (ℕ → ℚ) → ℕ → DiceResult × ℕ
  | .numerical v, _, idx => (⟨v, []⟩, idx)
  | .diceRoll size, g, idx => rollDie size g idx
  | .countedDiceRoll count size, g, idx =>
    let first := rollDie size g idx
    countedLoop size count g 1 first.1 first.2
  | .arithmetic l r op, g, idx =>
    let lres := rollExpr l g idx
    let rres := rollExpr r g lres.2
    let v := match op with
      | .add => lres.1.value + rres.1.value
      | .sub => lres.1.value - rres.1.value
      | .mul => lres.1.value * rres.1.value
      | .div => lres.1.value / rres.1.value
    (⟨v, lres.1.diceRolled ++ rres.1.diceRolled⟩, rres.2)

/-- The number of dice rolled by `CountedDiceRollExpression.roll`: one
initial roll plus one per loop iteration `1 ≤ i < count`. -/
def totalRolls (count : ℚ) : ℕ := ((⌈count⌉).toNat - 1) + 1

/-- The structural shape of a roll: the die sizes in output order.  It
depends only on the expression tree, not on the random stream. -/
def shapeOf : DiceExpression → List ℚ
  | .numerical _ => []
  | .diceRoll s => [s]
  | .countedDiceRoll c s => List.replicate (totalRolls c) s
  | .arithmetic l r _ => shapeOf l ++ shapeOf r

/-- The `DiceParserError` hierarchy of the source: `DiceParserEmptyError`,
`DiceParserSyntaxError(issue, location?)` and `DiceParserDiceCount(allowed)`.
`undefinedExpr` stands for the abnormal case where
`expressionForReversePolishNotation` returns `stack[0]` of an empty stack,
i.e. the JS value `undefined` (which is not a usable expression). -/
inductive DiceParserError where
  | emptyErr
  | synErr (issue : String) (location : Option String)
  | diceCountErr (allowed : ℚ)
  | undefinedExpr
deriving DecidableEq

/-- The `Operator` interface of the source: an expression constructor, an
arity (2 for every current operator) and a precedence. -/
structure Operator where
  operation : DiceExpression → DiceExpression → DiceExpression
  arguments : ℕ
  precedence : ℕ

/-- The `operators` table of `DiceParser`, keyed by the operator token. -/
def operators (t : List Char) : Option Operator :=
  if t = ['+'] then some ⟨fun l r => .arithmetic l r .add, 2, 1⟩
  else if t = ['-'] then some ⟨fun l r => .arithmetic l r .sub, 2, 1⟩
  else if t = ['*'] then some ⟨fun l r => .arithmetic l r .mul, 2, 2⟩
  else if t = ['/'] then some ⟨fun l r => .arithmetic l r .div, 2, 2⟩
  else none

/-- `DiceParser.isTokenOperator`: `!!token && !!this.operators[token]`
(the empty token is not a key of the table, so the two checks coincide). -/
def isTokenOperator (t : List Char) : Prop := (operators t).isSome = true

instance (t : List Char) : Decidable (isTokenOperator t) := by
  unfold isTokenOperator
  infer_instance

/-- `DiceParser.isTokenGroupStart` on a present token. -/
def isTokenGroupStart (t : List Char) : Prop := t = ['(']

instance (t : List Char) : Decidable (isTokenGroupStart t) := by
  unfold isTokenGroupStart
  infer_instance

/-- `DiceParser.isTokenGroupEnd` on a present token. -/
def isTokenGroupEnd (t : List Char) : Prop := t = [')']

instance (t : List Char) : Decidable (isTokenGroupEnd t) := by
  unfold isTokenGroupEnd
  infer_instance

/-- `isCharOperator` of `tokenize`: a single character that is an operator
token. -/
def isCharOperator (c : Char) : Prop := isTokenOperator [c]

instance (c : Char) : Decidable (isCharOperator c) := by
  unfold isCharOperator
  infer_instance

/-- `value.trim()` restricted to the modelled whitespace characters. -/
def trimWs (cs : List Char) : List Char :=
  ((cs.dropWhile isWsChar).reverse.dropWhile isWsChar).reverse

/-- The worker behind `.replace(/\s+/g, ' ')`: collapses every run of
whitespace to a single space; the flag records whether the previous
character belonged to a whitespace run. -/
def collapseWsAux : List Char → Bool → List Char
  | [], _ => []
  | c :: rest, prevWs =>
    if isWsChar c then
      if prevWs then collapseWsAux rest true else ' ' :: collapseWsAux rest true
    else c :: collapseWsAux rest false

/-- `value.trim().replace(/\s+/g, ' ')` from `tokenize`. -/
def jsTrimCollapse (cs : List Char) : List Char := collapseWsAux (trimWs cs) false

/-- The `±20`-character window `trimmedValue.slice(Math.max(0, i - 20), i + 20)`
used in tokenizer error locations. -/
def sliceWindow (trimmed : List Char) (i : ℕ) : String :=
  String.mk (((trimmed.drop (i - 20))).take ((i + 20) - (i - 20)))

/-- `/\d/.test(c)` applied to a `charAt` result that may be the empty
string (`charAt` out of range), which never matches. -/
def isDigitCharO : Option Char → Bool
  | some c => isDigitChar c
  | none => false

/-- `/\w/.test(c)` applied to a possibly-empty `charAt` result. -/
def isWordCharO : Option Char → Bool
  | some c => isWordChar c
  | none => false

/-- The character scan of `DiceParser.tokenize`.  Arguments: the full
trimmed input (for error windows), the remaining characters, the current
index `i`, the previous raw character (`charAt(i - 1)`, `none` at the
start), the emitted tokens in reverse order, the accumulating `current`
buffer, and the `currentAdded` decimal-point flag. -/
def tokLoop (trimmed : List Char) :
    List Char → ℕ → Option Char → List (List Char) → List Char → Bool →
    Except DiceParserError (List (List Char))
  | [], _, _, tokens, current, _ =>
    .ok (List.reverse (if current = [] then tokens else current :: tokens))
  | c :: cs, i, prevC, tokens, current, currentAdded =>
    let nextC : Option Char := cs.head?
    let lastToken : Option (List Char) := tokens.head?
    -- `currentParsingStarted` of the source is the test `current ≠ []`,
    -- written inline below so the conditions stay decidable.
    if isWordChar c = true ∨
        (c = '-' ∧ ¬ (current ≠ []) ∧
          (lastToken = none ∨ lastToken = some [','] ∨
            lastToken = some ['('] ∨ isTokenOperator (lastToken.getD [])) ∧
          isDigitCharO nextC = true) then
      tokLoop trimmed cs (i + 1) (some c) tokens (current ++ [c]) currentAdded
    else if c = '.' then
      if current ≠ [] ∧ currentAdded = true then
        .error (.synErr "Invalid \".\" character" (some (sliceWindow trimmed i)))
      else tokLoop trimmed cs (i + 1) (some c) tokens (current ++ [c]) true
    else if c = ' ' then
      if isWordCharO prevC = true ∧ isWordCharO nextC = true then
        .error (.synErr "Extraneous space between tokens" (some (sliceWindow trimmed i)))
      else tokLoop trimmed cs (i + 1) (some c) tokens current currentAdded
    else if isCharOperator c ∨ c = '(' ∨ c = ')' ∨ c = ',' then
      if isCharOperator c ∧ ¬ (current ≠ []) ∧ isTokenOperator (lastToken.getD []) then
        .error (.synErr "Consecutive operators" (some (sliceWindow trimmed i)))
      else
        tokLoop trimmed cs (i + 1) (some c)
          ([c] :: (if current = [] then tokens else current :: tokens)) [] false
    else
      .error (.synErr (String.mk ("Invalid character ".data ++ [c]))
        (some (sliceWindow trimmed i)))

/-- `DiceParser.tokenize`. -/
def tokenize (value : String) : Except DiceParserError (List (List Char)) :=
  let trimmedValue := jsTrimCollapse value.data
  tokLoop trimmedValue trimmedValue 0 none [] [] false

/-- The `while (... && !isTokenGroupStart(top))` drain used for the closing
parenthesis and the comma: moves operators to the output (reversed) stack
until the operator stack is exhausted or an opening parenthesis is on top. -/
def popWhileNotGroupStart (output opStack : List (List Char)) :
    List (List Char) × List (List Char) :=
  match opStack with
  | [] => (output, [])
  | t :: rest =>
    if isTokenGroupStart t then (output, t :: rest)
    else popWhileNotGroupStart (t :: output) rest

/-- The `while` drain of the operator case: pops operators of precedence
`≥ p` (the incoming operator's precedence) to the output. -/
def popGEPrec (p : ℕ) (output opStack : List (List Char)) :
    List (List Char) × List (List Char) :=
  match opStack with
  | [] => (output, [])
  | t :: rest =>
    match operators t with
    | some o =>
      if p ≤ o.precedence then popGEPrec p (t :: output) rest
      else (output, t :: rest)
    | none => (output, t :: rest)

/-- The per-token dispatch of `DiceParser.shuntingYardConversion`.  Both
stacks keep their top at the list head; the output is therefore reversed at
the end. -/
def syLoop : List (List Char) → List (List Char) → List (List Char) →
    Except DiceParserError (List (List Char) × List (List Char))
  | [], output, opStack => .ok (output, opStack)
  | t :: rest, output, opStack =>
    if isTokenGroupStart t then syLoop rest output (t :: opStack)
    else if isTokenGroupEnd t then
      let drained := popWhileNotGroupStart output opStack
      match drained.2 with
      | _ :: opRest => syLoop rest drained.1 opRest
      | [] => .error (.synErr "Parenthesis mismatch" none)
    else if t = [','] then
      let drained := popWhileNotGroupStart output opStack
      if drained.2 = [] then .error (.synErr "Misplaced \",\"" none)
      else syLoop rest drained.1 drained.2
    else
      match operators t with
      | some o =>
        let drained := popGEPrec o.precedence output opStack
        syLoop rest drained.1 (t :: drained.2)
      | none => syLoop rest (t :: output) opStack

/-- The final drain of `shuntingYardConversion`: any remaining opening
parenthesis is a mismatch. -/
def drainOps : List (List Char) → List (List Char) →
    Except DiceParserError (List (List Char))
  | output, [] => .ok output
  | output, t :: rest =>
    if isTokenGroupStart t then .error (.synErr "Parenthesis mismatch" none)
    else drainOps (t :: output) rest

/-- `DiceParser.shuntingYardConversion`. -/
def shuntingYardConversion (tokens : List (List Char)) :
    Except DiceParserError (List (List Char)) :=
  match syLoop tokens [] [] with
  | .error e => .error e
  | .ok st =>
    match drainOps st.1 st.2 with
    | .error e => .error e
    | .ok out => .ok out.reverse

/-- `String.prototype.split` with a single-character separator. -/
def splitOnChar (sep : Char) : List Char → List (List Char)
  | [] => [[]]
  | c :: rest =>
    let r := splitOnChar sep rest
    if c = sep then [] :: r
    else
      match r with
      | h :: t => (c :: h) :: t
      | [] => [[c]]

/-- The value of a digit run, most significant first. -/
def digitsVal (ds : List Char) : ℕ := ds.foldl (fun a c => 10 * a + (c.toNat - 48)) 0

/-- Models the numeric handling of `expressionForPrimitive`: the guard
`isNumeric = !isNaN(+value) && !isNaN(parseFloat(value))` together with the
subsequent `parseFloat(value)`, returning `none` when the guard fails.
Only plain decimal forms (optional leading `-`, digits around an optional
single `.`) are modelled; the exotic JS numeric strings (exponent,
hexadecimal, `Infinity`, leading `+` or whitespace) are not producible in
the claims exercised here. -/
def jsNumericL (cs : List Char) : Option ℚ :=
  let signed : Bool × List Char := match cs with
    | c :: r => if c = '-' then (true, r) else (false, c :: r)
    | [] => (false, [])
  let ip := signed.2.takeWhile isDigitChar
  match signed.2.dropWhile isDigitChar with
  | [] =>
    if ip = [] then none
    else some (if signed.1 then -(digitsVal ip : ℚ) else (digitsVal ip : ℚ))
  | c :: fr =>
    if c = '.' then
      if fr.all isDigitChar ∧ ¬ (ip = [] ∧ fr = []) then
        some (if signed.1 then
            -((digitsVal ip : ℚ) + (digitsVal fr : ℚ) / 10 ^ fr.length)
          else (digitsVal ip : ℚ) + (digitsVal fr : ℚ) / 10 ^ fr.length)
      else none
    else none

/-- `DiceParser.expressionForPrimitive`.  The `parts.length !== 2` check of
the source is realised by matching the split result against the two-part
shape. -/
def expressionForPrimitive (token : List Char) :
    Except DiceParserError DiceExpression :=
  let tokenLower := token.map jsCharToLower
  if tokenLower.contains 'd' then
    match splitOnChar 'd' tokenLower with
    | [p0, p1] =>
      match jsNumericL p1 with
      | none =>
        .error (.synErr (String.mk ("Unrecognized input following letter d: ".data ++ token)) none)
      | some size =>
        let countPart := if p0 = [] then ['1'] else p0
        match jsNumericL countPart with
        | none =>
          .error (.synErr (String.mk ("Unrecognized input before letter d: ".data ++ token)) none)
        | some count =>
          if count < 1 then
            .error (.synErr (String.mk ("Unallowed count before letter d: ".data ++ token)) none)
          else .ok (.countedDiceRoll count size)
    | _ =>
      .error (.synErr (String.mk ("Unrecognized input with too may letter d\x27s: ".data ++ token)) none)
  else
    match jsNumericL token with
    | some v => .ok (.numerical v)
    | none => .error (.synErr (String.mk ("Unrecognized input: ".data ++ token)) none)

/-- The token walk of `expressionForReversePolishNotation`, carrying the
expression stack (top at head) and the running `diceCount`.  The parser's
`maximumDiceCount` field is the `max?` argument (`none` = `undefined`).
Every operator has `arguments = 2`, so popping the operands amounts to
matching two stack entries; fewer throws `'Incorrect amount of arguments'`. -/
def rpnLoop (max? : Option ℚ) :
    List (List Char) → List DiceExpression → ℚ →
    Except DiceParserError (List DiceExpression)
  | [], stack, _ => .ok stack
  | t :: rest, stack, diceCount =>
    match operators t with
    | some o =>
      match stack with
      | r :: l :: s => rpnLoop max? rest (o.operation l r :: s) diceCount
      | _ => .error (.synErr "Incorrect amount of arguments" none)
    | none =>
      match expressionForPrimitive t with
      | .error e => .error e
      | .ok exp =>
        match max?, exp with
        | some m, .countedDiceRoll c _ =>
          let dc := diceCount + c
          if m < dc then .error (.diceCountErr m)
          else rpnLoop max? rest (exp :: stack) dc
        | _, _ => rpnLoop max? rest (exp :: stack) diceCount

/-- `DiceParser.expressionForReversePolishNotation`. -/
def expressionForRPN (max? : Option ℚ) (tokens : List (List Char)) :
    Except DiceParserError DiceExpression :=
  match rpnLoop max? tokens [] 0 with
  | .error e => .error e
  | .ok stack =>
    match stack with
    | [e] => .ok e
    | [] => .error .undefinedExpr
    | _ => .error (.synErr "Insufficient operators" none)

/-- `DiceParser.parse`, with the parser's `maximumDiceCount` configuration
passed as `max?`. -/
def parse (max? : Option ℚ) (value : String) :
    Except DiceParserError DiceExpression :=
  match tokenize value with
  | .error e => .error e
  | .ok tokens =>
    if tokens = [] then .error .emptyErr
    else
      match shuntingYardConversion tokens with
      | .error e => .error e
      | .ok rpn => expressionForRPN max? rpn

/-! ## Evaluation lemmas -/

theorem dieRecord_size (s x : ℚ) : (dieRecord s x).size = s := by
  unfold dieRecord
  dsimp only
  split
  · rfl
  · split <;> rfl

theorem dieRecord_value (s x : ℚ) : (dieRecord s x).value = dieValue s x := by
  unfold dieRecord
  dsimp only
  split
  · rfl
  · split <;> rfl

/-- The records produced by `n` successive die rolls starting at stream
position `idx` (a description helper for `countedLoop`). -/
def rollsFrom (size : ℚ) (g : ℕ → ℚ) (idx : ℕ) : ℕ → List DiceRolled
  | 0 => []
  | n + 1 => dieRecord size (g idx) :: rollsFrom size g (idx + 1) n

/-- The summed sampled values of `n` successive die rolls starting at
stream position `idx`. -/
def sumValsFrom (size : ℚ) (g : ℕ → ℚ) (idx : ℕ) : ℕ → ℚ
  | 0 => 0
  | n + 1 => dieValue size (g idx) + sumValsFrom size g (idx + 1) n

theorem rollsFrom_eq_map (size : ℚ) (g : ℕ → ℚ) :
    ∀ (n idx : ℕ),
    rollsFrom size g idx n = (List.range n).map (fun j => dieRecord size (g (idx + j))) := by
  intro n
  induction n with
  | zero =>
    intro idx
    rfl
  | succ n ih =>
    intro idx
    rw [List.range_succ_eq_map, List.map_cons, List.map_map]
    show dieRecord size (g idx) :: rollsFrom size g (idx + 1) n = _
    refine congrArg₂ List.cons ?_ ?_
    · rw [Nat.add_zero]
    · rw [ih (idx + 1)]
      apply List.map_congr_left
      intro j _
      have h : idx + 1 + j = idx + Nat.succ j := by omega
      rw [Function.comp_apply, h]

theorem sumValsFrom_eq_map (size : ℚ) (g : ℕ → ℚ) :
    ∀ (n idx : ℕ),
    sumValsFrom size g idx n =
      ((List.range n).map (fun j => dieValue size (g (idx + j)))).sum := by
  intro n
  induction n with
  | zero =>
    intro idx
    rfl
  | succ n ih =>
    intro idx
    rw [List.range_succ_eq_map, List.map_cons, List.map_map, List.sum_cons]
    show dieValue size (g idx) + sumValsFrom size g (idx + 1) n = _
    refine congrArg₂ (· + ·) ?_ ?_
    · rw [Nat.add_zero]
    · rw [ih (idx + 1)]
      apply congrArg List.sum
      apply List.map_congr_left
      intro j _
      have h : idx + 1 + j = idx + Nat.succ j := by omega
      rw [Function.comp_apply, h]

/-- Full characterisation of `countedLoop`: starting at loop counter `i`,
it performs `⌈count⌉.toNat - i` further rolls on consecutive stream
positions, summing the sampled values and appending the records. -/
theorem countedLoop_eq (size count : ℚ) (g : ℕ → ℚ) :
    ∀ (n i : ℕ) (acc : DiceResult) (idx : ℕ), (⌈count⌉).toNat - i = n →
    countedLoop size count g i acc idx =
      (⟨acc.value + sumValsFrom size g idx n,
        acc.diceRolled ++ rollsFrom size g idx n⟩,
       idx + n) := by
  intro n
  induction n with
  | zero =>
    intro i acc idx hn
    have hguard : ¬ ((i : ℚ) < count) := by
      intro h
      have h1 : (i : ℤ) < ⌈count⌉ := by
        rw [Int.lt_ceil]
        push_cast
        exact h
      have h2 : i < (⌈count⌉).toNat := Int.lt_toNat.mpr h1
      omega
    rw [countedLoop, dif_neg hguard]
    simp [sumValsFrom, rollsFrom]
  | succ n ih =>
    intro i acc idx hn
    have h2 : i < (⌈count⌉).toNat := by omega
    have hguard : (i : ℚ) < count := by
      have h3 := Int.lt_ceil.mp (Int.lt_toNat.mp h2)
      exact_mod_cast h3
    rw [countedLoop, dif_pos hguard]
    simp only [rollDie]
    rw [ih (i + 1) _ _ (by omega)]
    refine Prod.ext ?_ ?_
    · show (⟨_, _⟩ : DiceResult) = ⟨_, _⟩
      refine congrArg₂ DiceResult.mk ?_ ?_
      · show acc.value + dieValue size (g idx) + sumValsFrom size g (idx + 1) n =
          acc.value + sumValsFrom size g idx (n + 1)
        show _ = acc.value + (dieValue size (g idx) + sumValsFrom size g (idx + 1) n)
        rw [add_assoc]
      · show acc.diceRolled ++ [dieRecord size (g idx)] ++ rollsFrom size g (idx + 1) n =
          acc.diceRolled ++ rollsFrom size g idx (n + 1)
        rw [List.append_assoc]
        rfl
    · show idx + 1 + n = idx + (n + 1)
      omega

/-- `CountedDiceRollExpression.roll` rolls `totalRolls count` dice at
consecutive stream positions; the result value is the sum of the sampled
values and the records are listed in roll order. -/
theorem counted_roll_eq (count size : ℚ) (g : ℕ → ℚ) (idx : ℕ) :
    rollExpr (.countedDiceRoll count size) g idx =
      (⟨sumValsFrom size g idx (totalRolls count),
        rollsFrom size g idx (totalRolls count)⟩,
       idx + totalRolls count) := by
  show (let first := rollDie size g idx
    countedLoop size count g 1 first.1 first.2) = _
  simp only [rollDie]
  rw [countedLoop_eq size count g ((⌈count⌉).toNat - 1) 1 _ _ rfl]
  unfold totalRolls
  refine Prod.ext ?_ ?_
  · show (⟨_, _⟩ : DiceResult) = ⟨_, _⟩
    refine congrArg₂ DiceResult.mk rfl rfl
  · show idx + 1 + ((⌈count⌉).toNat - 1) = idx + (((⌈count⌉).toNat - 1) + 1)
    omega

/-- The die sizes recorded by a roll depend only on the expression tree. -/
theorem roll_shape (e : DiceExpression) :
    ∀ (g : ℕ → ℚ) (idx : ℕ),
    ((rollExpr e g idx).1.diceRolled).map (fun d => d.size) = shapeOf e := by
  induction e with
  | numerical v =>
    intro g idx
    rfl
  | diceRoll s =>
    intro g idx
    simp [rollExpr, rollDie, shapeOf, dieRecord_size]
  | countedDiceRoll c s =>
    intro g idx
    rw [counted_roll_eq]
    show (rollsFrom s g idx (totalRolls c)).map (fun d => d.size) = _
    rw [rollsFrom_eq_map]
    simp [shapeOf, List.map_map, Function.comp_def, dieRecord_size]
  | arithmetic l r op ihl ihr =>
    intro g idx
    show ((⟨_, (rollExpr l g idx).1.diceRolled ++
        (rollExpr r g (rollExpr l g idx).2).1.diceRolled⟩ : DiceResult).diceRolled).map
        (fun d => d.size) = shapeOf (.arithmetic l r op)
    rw [shapeOf]
    dsimp only
    rw [List.map_append, ihl, ihr]

/-! ## Claims -/

/-- C1, counterexample: the claim says a dice primitive whose size part is
`0` is rejected at parse time, but `parse` accepts both `d0` and `4d0`,
producing Die nodes of size `0` (only the count part is validated). -/
theorem c1_counterexample :
    parse none "d0" = .ok (.countedDiceRoll 1 0) ∧
    parse none "4d0" = .ok (.countedDiceRoll 4 0) :=
  ⟨rfl, rfl⟩

/-- C1, amended: a dice primitive whose count part is `0` or negative is
rejected at parse time with a Syntax error, but the size part is not
validated: `d0` and `4d0` parse successfully into counted Die nodes of
size `0`. -/
theorem c1_count_validated_size_not :
    parse none "0d20" = .error (.synErr "Unallowed count before letter d: 0d20" none) ∧
    parse none "-4d20" = .error (.synErr "Unallowed count before letter d: -4d20" none) ∧
    parse none "d0" = .ok (.countedDiceRoll 1 0) ∧
    parse none "4d0" = .ok (.countedDiceRoll 4 0) :=
  ⟨rfl, rfl, rfl, rfl⟩

/-- C2, counterexample: the claim says every input containing a comma token
fails to parse, but `(1,)` tokenizes to `(`, `1`, `,`, `)` and parses
successfully to the numeric literal `1` (the comma is silently skipped when
an opening parenthesis is on the operator stack). -/
theorem c2_counterexample : parse none "(1,)" = .ok (.numerical 1) := rfl

/-- C2, amended: resolving a comma fails with the Syntax error
`Misplaced ","` when the pending-operator stack is exhausted without an
opening parenthesis (for instance whenever the comma is the first token);
however, not every comma-containing input fails — see the counterexample. -/
theorem c2_comma_without_paren_fails (rest : List (List Char)) :
    shuntingYardConversion ([','] :: rest) = .error (.synErr "Misplaced \",\"" none) :=
  rfl

/-- C4: rolling a Binary-Arithmetic node rolls the left child first (from
the current stream position), then the right child (from the position the
left roll left off), returns the operator applied to the two values
(division is `ℚ` division, i.e. true division), and concatenates the die
records left-then-right. -/
theorem c4_arithmetic_roll (l r : DiceExpression) (op : ArithOp) (g : ℕ → ℚ) (idx : ℕ) :
    (rollExpr (.arithmetic l r op) g idx).1.value =
      (match op with
        | .add => (rollExpr l g idx).1.value + (rollExpr r g (rollExpr l g idx).2).1.value
        | .sub => (rollExpr l g idx).1.value - (rollExpr r g (rollExpr l g idx).2).1.value
        | .mul => (rollExpr l g idx).1.value * (rollExpr r g (rollExpr l g idx).2).1.value
        | .div => (rollExpr l g idx).1.value / (rollExpr r g (rollExpr l g idx).2).1.value) ∧
    (rollExpr (.arithmetic l r op) g idx).1.diceRolled =
      (rollExpr l g idx).1.diceRolled ++ (rollExpr r g (rollExpr l g idx).2).1.diceRolled ∧
    (rollExpr (.arithmetic l r op) g idx).2 = (rollExpr r g (rollExpr l g idx).2).2 := by
  refine ⟨?_, rfl, rfl⟩
  cases op <;> rfl

/-- C9: two rolls of one parsed expression, with arbitrary (independent)
random streams and stream positions, always have the same number of die
records and the same die sizes in the same order. -/
theorem c9_structural_idempotence (e : DiceExpression) (g₁ g₂ : ℕ → ℚ) (i₁ i₂ : ℕ) :
    ((rollExpr e g₁ i₁).1.diceRolled).length = ((rollExpr e g₂ i₂).1.diceRolled).length ∧
    ((rollExpr e g₁ i₁).1.diceRolled).map (fun d => d.size) =
      ((rollExpr e g₂ i₂).1.diceRolled).map (fun d => d.size) := by
  have h1 := roll_shape e g₁ i₁
  have h2 := roll_shape e g₂ i₂
  have hmap := h1.trans h2.symm
  constructor
  · have hlen := congrArg List.length hmap
    simpa using hlen
  · exact hmap

/-- C10: the primitive parser accepts a dice primitive with a fractional
count (`2.5d6` parses to a Counted-Dice node of count `5/2`), and rolling a
Counted-Dice node with count `K ≥ 1` produces `⌈K⌉` die records. -/
theorem c10_fractional_count :
    parse none "2.5d6" = .ok (.countedDiceRoll (5/2) 6) ∧
    ∀ (K sz : ℚ) (g : ℕ → ℚ) (idx : ℕ), 1 ≤ K →
      ((rollExpr (.countedDiceRoll K sz) g idx).1.diceRolled).length = (⌈K⌉).toNat := by
  constructor
  · have hprim : expressionForPrimitive ['2', '.', '5', 'd', '6'] =
        .ok (.countedDiceRoll (5/2) 6) := by
      have h : expressionForPrimitive ['2', '.', '5', 'd', '6'] =
          (if (((2 : ℕ) : ℚ) + ((5 : ℕ) : ℚ) / 10 ^ (1 : ℕ)) < 1 then
            .error (.synErr
              (String.mk ("Unallowed count before letter d: ".data ++ ['2', '.', '5', 'd', '6']))
              none)
          else
            .ok (.countedDiceRoll (((2 : ℕ) : ℚ) + ((5 : ℕ) : ℚ) / 10 ^ (1 : ℕ))
              ((6 : ℕ) : ℚ))) := rfl
      rw [h, if_neg (by norm_num)]
      norm_num
    have htok : tokenize "2.5d6" = .ok [['2', '.', '5', 'd', '6']] := rfl
    have hsy : shuntingYardConversion [['2', '.', '5', 'd', '6']] =
        .ok [['2', '.', '5', 'd', '6']] := rfl
    have hop : operators ['2', '.', '5', 'd', '6'] = none := rfl
    simp [parse, htok, hsy, expressionForRPN, rpnLoop, hop, hprim]
  · intro K sz g idx hK
    rw [counted_roll_eq]
    show (rollsFrom sz g idx (totalRolls K)).length = _
    rw [rollsFrom_eq_map, List.length_map, List.length_range]
    have hceil : (0 : ℤ) < ⌈K⌉ := by
      rw [Int.lt_ceil]
      push_cast
      linarith
    unfold totalRolls
    omega

/-- The sampled value of a die of positive integer size `N`, from a sample
in `[0, 1)`, lies in `[1, N]`. -/
theorem dieValue_bounds (N : ℕ) (x : ℚ) (hN : 1 ≤ N) (h0 : 0 ≤ x) (h1 : x < 1) :
    1 ≤ dieValue (N : ℚ) x ∧ dieValue (N : ℚ) x ≤ (N : ℚ) := by
  have hNpos : (0 : ℚ) < (N : ℚ) := by
    have : (1 : ℚ) ≤ (N : ℚ) := by exact_mod_cast hN
    linarith
  have hfl0 : (0 : ℤ) ≤ ⌊x * (N : ℚ)⌋ := Int.floor_nonneg.mpr (mul_nonneg h0 hNpos.le)
  have hfl1 : ⌊x * (N : ℚ)⌋ < (N : ℤ) := by
    rw [Int.floor_lt]
    push_cast
    nlinarith
  unfold dieValue
  constructor
  · have h : (0 : ℚ) ≤ (⌊x * (N : ℚ)⌋ : ℚ) := by exact_mod_cast hfl0
    linarith
  · have h : (⌊x * (N : ℚ)⌋ : ℚ) ≤ (N : ℚ) - 1 := by
      have h2 : ⌊x * (N : ℚ)⌋ ≤ (N : ℤ) - 1 := by omega
      exact_mod_cast h2
    linarith

/-- C5: the outcome record of rolling a die of positive integer size `s`
from a sample in `[0, 1)`: it is the unique record of the roll, its value
is an integer in `[1, s]`, `isMax` holds exactly when the value equals `s`,
`isMin` exactly when the value is `1` and `s ≠ 1` (so for `s = 1` only
`isMax` is set), and the two flags are never both set. -/
theorem c5_die_outcome (s : ℕ) (g : ℕ → ℚ) (idx : ℕ)
    (hs : 1 ≤ s) (h0 : 0 ≤ g idx) (h1 : g idx < 1) :
    (rollExpr (.diceRoll (s : ℚ)) g idx).1.diceRolled = [dieRecord (s : ℚ) (g idx)] ∧
    (∃ z : ℤ, (dieRecord (s : ℚ) (g idx)).value = (z : ℚ)) ∧
    (1 ≤ (dieRecord (s : ℚ) (g idx)).value ∧ (dieRecord (s : ℚ) (g idx)).value ≤ (s : ℚ)) ∧
    ((dieRecord (s : ℚ) (g idx)).isMax = true ↔ (dieRecord (s : ℚ) (g idx)).value = (s : ℚ)) ∧
    ((dieRecord (s : ℚ) (g idx)).isMin = true ↔
      ((dieRecord (s : ℚ) (g idx)).value = 1 ∧ s ≠ 1)) ∧
    ¬ ((dieRecord (s : ℚ) (g idx)).isMax = true ∧ (dieRecord (s : ℚ) (g idx)).isMin = true) := by
  have hb := dieValue_bounds s (g idx) hs h0 h1
  have hint : ∃ z : ℤ, dieValue (s : ℚ) (g idx) = (z : ℚ) := by
    refine ⟨⌊g idx * (s : ℚ)⌋ + 1, ?_⟩
    unfold dieValue
    push_cast
    ring
  by_cases hmax : dieValue (s : ℚ) (g idx) = (s : ℚ)
  · have hrec : dieRecord (s : ℚ) (g idx) =
        { size := (s : ℚ), value := dieValue (s : ℚ) (g idx), isMax := true, isMin := false } := by
      unfold dieRecord
      dsimp only
      rw [if_pos hmax]
    refine ⟨rfl, ?_, ?_, ?_, ?_, ?_⟩ <;> rw [hrec]
    · exact hint
    · exact hb
    · simp [hmax]
    · simp only [Bool.false_eq_true, false_iff, not_and]
      intro hv1 hs1
      apply hs1
      have hcast : (s : ℚ) = 1 := hmax ▸ hv1
      exact_mod_cast hcast
    · simp
  · by_cases hmin : dieValue (s : ℚ) (g idx) = 1
    · have hrec : dieRecord (s : ℚ) (g idx) =
          { size := (s : ℚ), value := dieValue (s : ℚ) (g idx),
            isMax := false, isMin := true } := by
        unfold dieRecord
        dsimp only
        rw [if_neg hmax, if_pos hmin]
      refine ⟨rfl, ?_, ?_, ?_, ?_, ?_⟩ <;> rw [hrec]
      · exact hint
      · exact hb
      · simp only [Bool.false_eq_true, false_iff]
        exact hmax
      · simp only [true_iff]
        refine ⟨hmin, ?_⟩
        intro hs1
        apply hmax
        rw [hmin, hs1]
        norm_num
      · simp
    · have hrec : dieRecord (s : ℚ) (g idx) =
          { size := (s : ℚ), value := dieValue (s : ℚ) (g idx),
            isMax := false, isMin := false } := by
        unfold dieRecord
        dsimp only
        rw [if_neg hmax, if_neg hmin]
      refine ⟨rfl, ?_, ?_, ?_, ?_, ?_⟩ <;> rw [hrec]
      · exact hint
      · exact hb
      · simp only [Bool.false_eq_true, false_iff]
        exact hmax
      · simp only [Bool.false_eq_true, false_iff, not_and]
        intro hv1
        exact absurd hv1 hmin
      · simp

/-- C5, witness: a one-sided die (`s = 1`) with sample `0`: the value is
`1 = s`, only `isMax` is set. -/
theorem c5_witness :
    (1 ≤ 1 ∧ 0 ≤ (fun _ : ℕ => (0 : ℚ)) 0 ∧ (fun _ : ℕ => (0 : ℚ)) 0 < 1) ∧
    ((rollExpr (.diceRoll ((1 : ℕ) : ℚ)) (fun _ => 0) 0).1.diceRolled =
        [dieRecord ((1 : ℕ) : ℚ) ((fun _ : ℕ => (0 : ℚ)) 0)] ∧
      (∃ z : ℤ, (dieRecord ((1 : ℕ) : ℚ) ((fun _ : ℕ => (0 : ℚ)) 0)).value = (z : ℚ)) ∧
      (1 ≤ (dieRecord ((1 : ℕ) : ℚ) ((fun _ : ℕ => (0 : ℚ)) 0)).value ∧
        (dieRecord ((1 : ℕ) : ℚ) ((fun _ : ℕ => (0 : ℚ)) 0)).value ≤ ((1 : ℕ) : ℚ)) ∧
      ((dieRecord ((1 : ℕ) : ℚ) ((fun _ : ℕ => (0 : ℚ)) 0)).isMax = true ↔
        (dieRecord ((1 : ℕ) : ℚ) ((fun _ : ℕ => (0 : ℚ)) 0)).value = ((1 : ℕ) : ℚ)) ∧
      ((dieRecord ((1 : ℕ) : ℚ) ((fun _ : ℕ => (0 : ℚ)) 0)).isMin = true ↔
        ((dieRecord ((1 : ℕ) : ℚ) ((fun _ : ℕ => (0 : ℚ)) 0)).value = 1 ∧ (1 : ℕ) ≠ 1)) ∧
      ¬ ((dieRecord ((1 : ℕ) : ℚ) ((fun _ : ℕ => (0 : ℚ)) 0)).isMax = true ∧
        (dieRecord ((1 : ℕ) : ℚ) ((fun _ : ℕ => (0 : ℚ)) 0)).isMin = true)) :=
  ⟨⟨le_refl 1, le_refl 0, by norm_num⟩,
    c5_die_outcome 1 (fun _ => 0) 0 (le_refl 1) (le_refl 0) (by norm_num)⟩

/-- C3: rolling a Counted-Dice node of positive integer count `K` wrapping
a die of positive integer size `N` yields exactly the `K` records of the
`K` successive independent die rolls (in roll order), a value equal to the
sum of the record values, and the value lies in `[K, K * N]`. -/
theorem c3_counted_roll (K N : ℕ) (g : ℕ → ℚ) (idx : ℕ)
    (hK : 1 ≤ K) (hN : 1 ≤ N) (hg : ∀ n, 0 ≤ g n ∧ g n < 1) :
    (rollExpr (.countedDiceRoll (K : ℚ) (N : ℚ)) g idx).1.diceRolled =
      (List.range K).map (fun j => dieRecord (N : ℚ) (g (idx + j))) ∧
    (rollExpr (.countedDiceRoll (K : ℚ) (N : ℚ)) g idx).1.value =
      (((rollExpr (.countedDiceRoll (K : ℚ) (N : ℚ)) g idx).1.diceRolled).map
        (fun d => d.value)).sum ∧
    (K : ℚ) ≤ (rollExpr (.countedDiceRoll (K : ℚ) (N : ℚ)) g idx).1.value ∧
    (rollExpr (.countedDiceRoll (K : ℚ) (N : ℚ)) g idx).1.value ≤ (K : ℚ) * (N : ℚ) := by
  have htot : totalRolls ((K : ℕ) : ℚ) = K := by
    unfold totalRolls
    rw [Int.ceil_natCast, Int.toNat_natCast]
    omega
  have hsum : (rollExpr (.countedDiceRoll (K : ℚ) (N : ℚ)) g idx).1.value =
      ((List.range K).map (fun j => dieValue (N : ℚ) (g (idx + j)))).sum := by
    rw [counted_roll_eq]
    dsimp only
    rw [htot, sumValsFrom_eq_map]
  have hrolled : (rollExpr (.countedDiceRoll (K : ℚ) (N : ℚ)) g idx).1.diceRolled =
      (List.range K).map (fun j => dieRecord (N : ℚ) (g (idx + j))) := by
    rw [counted_roll_eq]
    dsimp only
    rw [htot, rollsFrom_eq_map]
  have hlow : ∀ x ∈ (List.range K).map (fun j => dieValue (N : ℚ) (g (idx + j))),
      (1 : ℚ) ≤ x := by
    intro x hx
    rcases List.mem_map.mp hx with ⟨j, _, rfl⟩
    exact (dieValue_bounds N (g (idx + j)) hN (hg (idx + j)).1 (hg (idx + j)).2).1
  have hhigh : ∀ x ∈ (List.range K).map (fun j => dieValue (N : ℚ) (g (idx + j))),
      x ≤ (N : ℚ) := by
    intro x hx
    rcases List.mem_map.mp hx with ⟨j, _, rfl⟩
    exact (dieValue_bounds N (g (idx + j)) hN (hg (idx + j)).1 (hg (idx + j)).2).2
  have hlen : ((List.range K).map (fun j => dieValue (N : ℚ) (g (idx + j)))).length = K := by
    simp
  refine ⟨hrolled, ?_, ?_, ?_⟩
  · rw [hsum, hrolled, List.map_map]
    apply congrArg List.sum
    apply List.map_congr_left
    intro j _
    rw [Function.comp_apply, dieRecord_value]
  · rw [hsum]
    have h := List.card_nsmul_le_sum
      ((List.range K).map (fun j => dieValue (N : ℚ) (g (idx + j)))) (1 : ℚ) hlow
    rw [hlen, nsmul_eq_mul, mul_one] at h
    exact h
  · rw [hsum]
    have h := List.sum_le_card_nsmul
      ((List.range K).map (fun j => dieValue (N : ℚ) (g (idx + j)))) ((N : ℚ)) hhigh
    rw [hlen, nsmul_eq_mul] at h
    exact h

/-- C3, witness: `2d6` with the constant sample stream `1/2`: two records
of value `4`, total `8`, within `[2, 12]`. -/
theorem c3_witness :
    (1 ≤ 2 ∧ 1 ≤ 6 ∧ (∀ n : ℕ, 0 ≤ (fun _ : ℕ => (1/2 : ℚ)) n ∧
      (fun _ : ℕ => (1/2 : ℚ)) n < 1)) ∧
    ((rollExpr (.countedDiceRoll ((2 : ℕ) : ℚ) ((6 : ℕ) : ℚ)) (fun _ => 1/2) 0).1.diceRolled =
      (List.range 2).map (fun j => dieRecord ((6 : ℕ) : ℚ) ((fun _ : ℕ => (1/2 : ℚ)) (0 + j))) ∧
    (rollExpr (.countedDiceRoll ((2 : ℕ) : ℚ) ((6 : ℕ) : ℚ)) (fun _ => 1/2) 0).1.value =
      (((rollExpr (.countedDiceRoll ((2 : ℕ) : ℚ) ((6 : ℕ) : ℚ)) (fun _ => 1/2) 0).1.diceRolled).map
        (fun d => d.value)).sum ∧
    ((2 : ℕ) : ℚ) ≤ (rollExpr (.countedDiceRoll ((2 : ℕ) : ℚ) ((6 : ℕ) : ℚ)) (fun _ => 1/2) 0).1.value ∧
    (rollExpr (.countedDiceRoll ((2 : ℕ) : ℚ) ((6 : ℕ) : ℚ)) (fun _ => 1/2) 0).1.value ≤
      ((2 : ℕ) : ℚ) * ((6 : ℕ) : ℚ)) :=
  ⟨⟨by norm_num, by norm_num, fun n => ⟨by norm_num, by norm_num⟩⟩,
    c3_counted_roll 2 6 (fun _ => 1/2) 0 (by norm_num) (by norm_num)
      (fun n => ⟨by norm_num, by norm_num⟩)⟩

/-- A successfully parsed Counted-Dice primitive always has count `≥ 1`
(the `count < 1` guard of `expressionForPrimitive`). -/
theorem prim_counted_one_le (t : List Char) (c s : ℚ)
    (h : expressionForPrimitive t = .ok (.countedDiceRoll c s)) : 1 ≤ c := by
  unfold expressionForPrimitive at h
  dsimp only at h
  split at h
  · split at h
    · split at h
      · exact absurd h (by simp)
      · split at h
        · exact absurd h (by simp)
        · split at h
          · exact absurd h (by simp)
          · rename_i count hguard
            simp only [Except.ok.injEq, DiceExpression.countedDiceRoll.injEq] at h
            obtain ⟨hc, -⟩ := h
            rw [← hc]
            linarith [not_lt.mp hguard]
    · exact absurd h (by simp)
  · split at h
    · exact absurd h (by simp)
    · exact absurd h (by simp)

/-- The number of dice a primitive token contributes to the running
`diceCount` of `expressionForReversePolishNotation`. -/
def countOf (t : List Char) : ℚ :=
  match expressionForPrimitive t with
  | .ok (.countedDiceRoll c _) => c
  | _ => 0

/-- The total dice count of a token list (in the sense of the running
`diceCount` accumulated by the builder). -/
def diceTotal (tokens : List (List Char)) : ℚ := (tokens.map countOf).sum

theorem countOf_nonneg (t : List Char) : 0 ≤ countOf t := by
  unfold countOf
  split
  · rename_i c s h
    linarith [prim_counted_one_le t c s h]
  · exact le_refl 0

theorem diceTotal_nonneg (toks : List (List Char)) : 0 ≤ diceTotal toks := by
  unfold diceTotal
  apply List.sum_nonneg
  intro x hx
  rcases List.mem_map.mp hx with ⟨t, -, rfl⟩
  exact countOf_nonneg t

theorem countOf_op (t : List Char) (o : Operator) (h : operators t = some o) :
    countOf t = 0 := by
  unfold operators at h
  split_ifs at h with h1 h2 h3 h4
  · rw [h1]
    rfl
  · rw [h2]
    rfl
  · rw [h3]
    rfl
  · rw [h4]
    rfl

/-- The builder run with a configured maximum, compared against the
unlimited run: as long as the accumulated count stays within the maximum it
produces the same stack, and the first primitive pushing the accumulated
count past the maximum aborts with the DiceCount error. -/
theorem rpnLoop_limited (M : ℚ) :
    ∀ (toks : List (List Char)) (stack final : List DiceExpression) (dc : ℚ),
    rpnLoop none toks stack 0 = .ok final → dc ≤ M →
    ((dc + diceTotal toks ≤ M → rpnLoop (some M) toks stack dc = .ok final) ∧
     (M < dc + diceTotal toks → rpnLoop (some M) toks stack dc = .error (.diceCountErr M))) := by
  intro toks
  induction toks with
  | nil =>
    intro stack final dc h hdc
    constructor
    · intro _
      exact h
    · intro hlt
      exfalso
      have h0 : diceTotal [] = 0 := rfl
      rw [h0] at hlt
      linarith
  | cons t rest ih =>
    intro stack final dc h hdc
    have htot : diceTotal (t :: rest) = countOf t + diceTotal rest := by
      unfold diceTotal
      rw [List.map_cons, List.sum_cons]
    cases hop : operators t with
    | some o =>
      have hct : countOf t = 0 := countOf_op t o hop
      simp only [rpnLoop, hop] at h ⊢
      match stack with
      | [] => exact absurd h (by simp)
      | [x] => exact absurd h (by simp)
      | r :: l :: s' =>
        constructor <;> intro h' <;> rw [htot, hct, zero_add] at h'
        · exact (ih (o.operation l r :: s') final dc h hdc).1 h'
        · exact (ih (o.operation l r :: s') final dc h hdc).2 h'
    | none =>
      cases hprim : expressionForPrimitive t with
      | error err =>
        simp only [rpnLoop, hop, hprim] at h
        exact absurd h (by simp)
      | ok exp =>
        cases exp with
        | countedDiceRoll c sz =>
          have hc1 : 1 ≤ c := prim_counted_one_le t c sz hprim
          have hct : countOf t = c := by
            unfold countOf
            rw [hprim]
          simp only [rpnLoop, hop, hprim] at h ⊢
          constructor
          · intro hle
            rw [htot, hct] at hle
            have hrest := diceTotal_nonneg rest
            have hdc' : dc + c ≤ M := by linarith
            rw [if_neg (by linarith : ¬ M < dc + c)]
            exact (ih (DiceExpression.countedDiceRoll c sz :: stack) final (dc + c) h hdc').1
              (by linarith)
          · intro hlt
            rw [htot, hct] at hlt
            by_cases hstep : M < dc + c
            · rw [if_pos hstep]
            · rw [if_neg hstep]
              push_neg at hstep
              exact (ih (DiceExpression.countedDiceRoll c sz :: stack) final (dc + c) h hstep).2
                (by linarith)
        | numerical v =>
          have hct : countOf t = 0 := by
            unfold countOf
            rw [hprim]
          simp only [rpnLoop, hop, hprim] at h ⊢
          constructor <;> intro h' <;> rw [htot, hct, zero_add] at h'
          · exact (ih (DiceExpression.numerical v :: stack) final dc h hdc).1 h'
          · exact (ih (DiceExpression.numerical v :: stack) final dc h hdc).2 h'
        | diceRoll sz =>
          have hct : countOf t = 0 := by
            unfold countOf
            rw [hprim]
          simp only [rpnLoop, hop, hprim] at h ⊢
          constructor <;> intro h' <;> rw [htot, hct, zero_add] at h'
          · exact (ih (DiceExpression.diceRoll sz :: stack) final dc h hdc).1 h'
          · exact (ih (DiceExpression.diceRoll sz :: stack) final dc h hdc).2 h'
        | arithmetic el er eop =>
          have hct : countOf t = 0 := by
            unfold countOf
            rw [hprim]
          simp only [rpnLoop, hop, hprim] at h ⊢
          constructor <;> intro h' <;> rw [htot, hct, zero_add] at h'
          · exact (ih (DiceExpression.arithmetic el er eop :: stack) final dc h hdc).1 h'
          · exact (ih (DiceExpression.arithmetic el er eop :: stack) final dc h hdc).2 h'

/-- The dice total introduced by an input string: the `diceTotal` of its
RPN token sequence (`0` when tokenizing or resolution fails). -/
def diceTotalString (s : String) : ℚ :=
  match tokenize s with
  | .ok toks =>
    match shuntingYardConversion toks with
    | .ok rpn => diceTotal rpn
    | .error _ => 0
  | .error _ => 0

/-- C6: with a configured maximum dice count `M` (nonnegative), an
expression whose dice total is at most `M` (in particular, exactly `M`)
parses to the same tree as with no maximum; one whose total exceeds `M`
(in particular, `M + 1` or more) fails with the DiceCount error carrying
`M`; and with the configuration cleared (`none` = `undefined`) the
expression parses successfully again. -/
theorem c6_dice_count_limit (s : String) (e : DiceExpression) (M : ℚ)
    (hM : 0 ≤ M) (h : parse none s = .ok e) :
    parse none s = .ok e ∧
    (diceTotalString s ≤ M → parse (some M) s = .ok e) ∧
    (M < diceTotalString s → parse (some M) s = .error (.diceCountErr M)) := by
  refine ⟨h, ?_⟩
  unfold parse at h
  cases htok : tokenize s with
  | error err =>
    rw [htok] at h
    simp at h
  | ok toks =>
    rw [htok] at h
    dsimp only at h
    by_cases hemp : toks = []
    · rw [if_pos hemp] at h
      simp at h
    · rw [if_neg hemp] at h
      cases hsy : shuntingYardConversion toks with
      | error err =>
        rw [hsy] at h
        simp at h
      | ok rpn =>
        rw [hsy] at h
        dsimp only at h
        unfold expressionForRPN at h
        cases hloop : rpnLoop none rpn [] 0 with
        | error err =>
          rw [hloop] at h
          simp at h
        | ok stck =>
          rw [hloop] at h
          dsimp only at h
          have hlim := rpnLoop_limited M rpn [] stck 0 hloop hM
          have hdts : diceTotalString s = diceTotal rpn := by
            unfold diceTotalString
            rw [htok]
            dsimp only
            rw [hsy]
          constructor
          · intro hle
            unfold parse
            rw [htok]
            dsimp only
            rw [if_neg hemp, hsy]
            dsimp only
            unfold expressionForRPN
            rw [hlim.1 (by rw [hdts] at hle; linarith)]
            exact h
          · intro hlt
            unfold parse
            rw [htok]
            dsimp only
            rw [if_neg hemp, hsy]
            dsimp only
            unfold expressionForRPN
            rw [hlim.2 (by rw [hdts] at hlt; linarith)]

/-- C6, witness: `2d6` introduces exactly two dice, so it parses with the
maximum configured to `2`, and it parses with the maximum cleared. -/
theorem c6_witness :
    (0 ≤ (2 : ℚ) ∧ parse none "2d6" = .ok (.countedDiceRoll 2 6)) ∧
    (parse none "2d6" = .ok (.countedDiceRoll 2 6) ∧
      (diceTotalString "2d6" ≤ (2 : ℚ) →
        parse (some 2) "2d6" = .ok (.countedDiceRoll 2 6)) ∧
      ((2 : ℚ) < diceTotalString "2d6" →
        parse (some 2) "2d6" = .error (.diceCountErr 2))) :=
  ⟨⟨by norm_num, rfl⟩, c6_dice_count_limit "2d6" (.countedDiceRoll 2 6) 2 (by norm_num) rfl⟩

/-- C7: the resolver pops pending operators of greater-or-equal precedence
before pushing the incoming one, so same-precedence chains associate left
and `*` binds tighter than `-`: for any operand tokens `a b c` (parsed to
`ea eb ec`), `a-b-c` builds `(a-b)-c` and `a-b*c` builds `a-(b*c)`. -/
theorem c7_precedence_left_assoc (a b c : List Char) (ea eb ec : DiceExpression)
    (haop : operators a = none) (hag : a ≠ ['(']) (hag2 : a ≠ [')']) (hac : a ≠ [','])
    (hbop : operators b = none) (hbg : b ≠ ['(']) (hbg2 : b ≠ [')']) (hbc : b ≠ [','])
    (hcop : operators c = none) (hcg : c ≠ ['(']) (hcg2 : c ≠ [')']) (hcc : c ≠ [','])
    (hpa : expressionForPrimitive a = .ok ea)
    (hpb : expressionForPrimitive b = .ok eb)
    (hpc : expressionForPrimitive c = .ok ec) :
    (shuntingYardConversion [a, ['-'], b, ['-'], c] = .ok [a, b, ['-'], c, ['-']] ∧
      expressionForRPN none [a, b, ['-'], c, ['-']] =
        .ok (.arithmetic (.arithmetic ea eb .sub) ec .sub)) ∧
    (shuntingYardConversion [a, ['-'], b, ['*'], c] = .ok [a, b, c, ['*'], ['-']] ∧
      expressionForRPN none [a, b, c, ['*'], ['-']] =
        .ok (.arithmetic ea (.arithmetic eb ec .mul) .sub)) := by
  have hsub : operators ['-'] = some ⟨fun l r => .arithmetic l r .sub, 2, 1⟩ := rfl
  have hmul : operators ['*'] = some ⟨fun l r => .arithmetic l r .mul, 2, 2⟩ := rfl
  refine ⟨⟨?_, ?_⟩, ⟨?_, ?_⟩⟩
  · simp [shuntingYardConversion, syLoop, popGEPrec, popWhileNotGroupStart, drainOps,
      isTokenGroupStart, isTokenGroupEnd, hsub, haop, hbop, hcop,
      hag, hag2, hac, hbg, hbg2, hbc, hcg, hcg2, hcc]
  · simp [expressionForRPN, rpnLoop, hsub, haop, hbop, hcop, hpa, hpb, hpc]
  · simp [shuntingYardConversion, syLoop, popGEPrec, popWhileNotGroupStart, drainOps,
      isTokenGroupStart, isTokenGroupEnd, hsub, hmul, haop, hbop, hcop,
      hag, hag2, hac, hbg, hbg2, hbc, hcg, hcg2, hcc]
  · simp [expressionForRPN, rpnLoop, hsub, hmul, haop, hbop, hcop, hpa, hpb, hpc]

/-- C7, witness: with the numeric operand tokens `1`, `2`, `3`, `1-2-3`
resolves and builds to `(1-2)-3` and `1-2*3` to `1-(2*3)`. -/
theorem c7_witness :
    (shuntingYardConversion [['1'], ['-'], ['2'], ['-'], ['3']] =
        .ok [['1'], ['2'], ['-'], ['3'], ['-']] ∧
      expressionForRPN none [['1'], ['2'], ['-'], ['3'], ['-']] =
        .ok (.arithmetic (.arithmetic (.numerical 1) (.numerical 2) .sub) (.numerical 3) .sub)) ∧
    (shuntingYardConversion [['1'], ['-'], ['2'], ['*'], ['3']] =
        .ok [['1'], ['2'], ['3'], ['*'], ['-']] ∧
      expressionForRPN none [['1'], ['2'], ['3'], ['*'], ['-']] =
        .ok (.arithmetic (.numerical 1)
          (.arithmetic (.numerical 2) (.numerical 3) .mul) .sub)) :=
  c7_precedence_left_assoc ['1'] ['2'] ['3'] (.numerical 1) (.numerical 2) (.numerical 3)
    rfl (by decide) (by decide) (by decide)
    rfl (by decide) (by decide) (by decide)
    rfl (by decide) (by decide) (by decide)
    rfl rfl rfl

/-- The claim's numeric-literal grammar `['-'] digits ['.' digits]`, as a
character list: an optional leading minus, a nonempty integer digit run,
and an optional fractional digit run after a decimal point. -/
def litChars (neg : Bool) (ds fs : List Char) : List Char :=
  (if neg then ['-'] else []) ++ ds ++ (if fs = [] then [] else '.' :: fs)

/-- The number denoted by such a literal. -/
def litVal (neg : Bool) (ds fs : List Char) : ℚ :=
  (if neg then -1 else 1) * ((digitsVal ds : ℚ) + (digitsVal fs : ℚ) / 10 ^ fs.length)

theorem digit_toNat (c : Char) (h : isDigitChar c = true) :
    48 ≤ c.toNat ∧ c.toNat ≤ 57 := by
  simpa [isDigitChar] using h

theorem digit_not_ws (c : Char) (h : isDigitChar c = true) : isWsChar c = false := by
  have hb := digit_toNat c h
  simp only [isWsChar, decide_eq_false_iff_not]
  omega

theorem digit_word (c : Char) (h : isDigitChar c = true) : isWordChar c = true := by
  simp only [isWordChar, h, Bool.true_or]

theorem digit_toLower (c : Char) (h : isDigitChar c = true) : jsCharToLower c = c := by
  have hb := digit_toNat c h
  unfold jsCharToLower
  rw [if_neg]
  omega

theorem digit_ne_of_toNat (c x : Char) (h : isDigitChar c = true)
    (hx : ¬ (48 ≤ x.toNat ∧ x.toNat ≤ 57)) : c ≠ x := by
  intro heq
  rw [heq] at h
  exact hx (digit_toNat x h)

theorem dropWhile_of_head_false {p : Char → Bool} :
    ∀ (l : List Char), (∀ x ∈ l.head?, p x = false) → l.dropWhile p = l := by
  intro l hl
  cases l with
  | nil => rfl
  | cons c t =>
    rw [List.dropWhile_cons, if_neg]
    simp [hl c]

theorem collapseWsAux_of_no_ws :
    ∀ (l : List Char), (∀ x ∈ l, isWsChar x = false) → collapseWsAux l false = l := by
  intro l
  induction l with
  | nil =>
    intro _
    rfl
  | cons c t ih =>
    intro h
    unfold collapseWsAux
    rw [if_neg (by simp [h c (by simp)])]
    rw [ih (fun x hx => h x (by simp [hx]))]

theorem trimCollapse_of_no_ws (cs : List Char) (h : ∀ x ∈ cs, isWsChar x = false) :
    jsTrimCollapse cs = cs := by
  unfold jsTrimCollapse trimWs
  rw [dropWhile_of_head_false cs (by
    intro x hx
    exact h x (List.mem_of_mem_head? hx))]
  rw [dropWhile_of_head_false cs.reverse (by
    intro x hx
    exact h x (List.mem_reverse.mp (List.mem_of_mem_head? hx)))]
  rw [List.reverse_reverse]
  exact collapseWsAux_of_no_ws cs h

theorem takeWhile_all {p : Char → Bool} :
    ∀ (l : List Char), (∀ x ∈ l, p x = true) →
    l.takeWhile p = l ∧ l.dropWhile p = [] := by
  intro l
  induction l with
  | nil =>
    intro _
    exact ⟨rfl, rfl⟩
  | cons c t ih =>
    intro h
    have hc : p c = true := h c (by simp)
    have ht := ih (fun x hx => h x (by simp [hx]))
    rw [List.takeWhile_cons, List.dropWhile_cons, if_pos hc, if_pos hc]
    exact ⟨by rw [ht.1], ht.2⟩

theorem takeWhile_append_stop {p : Char → Bool} (x : Char) (t : List Char)
    (hx : p x = false) :
    ∀ (l : List Char), (∀ y ∈ l, p y = true) →
    (l ++ x :: t).takeWhile p = l ∧ (l ++ x :: t).dropWhile p = x :: t := by
  intro l
  induction l with
  | nil =>
    intro _
    rw [List.nil_append, List.takeWhile_cons, List.dropWhile_cons, if_neg (by simp [hx]),
      if_neg (by simp [hx])]
    exact ⟨rfl, rfl⟩
  | cons c l' ih =>
    intro h
    have hc : p c = true := h c (by simp)
    have hl' := ih (fun y hy => h y (by simp [hy]))
    rw [List.cons_append, List.takeWhile_cons, List.dropWhile_cons, if_pos hc, if_pos hc]
    exact ⟨by rw [hl'.1], hl'.2⟩

theorem litChars_mem (neg : Bool) (ds fs : List Char)
    (hd : ∀ x ∈ ds, isDigitChar x = true) (hf : ∀ x ∈ fs, isDigitChar x = true) :
    ∀ x ∈ litChars neg ds fs, x = '-' ∨ x = '.' ∨ isDigitChar x = true := by
  intro x hx
  unfold litChars at hx
  rcases List.mem_append.mp hx with h1 | h2
  · rcases List.mem_append.mp h1 with ha | hb
    · cases neg with
      | false => simp at ha
      | true =>
        left
        simpa using ha
    · right
      right
      exact hd x hb
  · cases hfs : fs with
    | nil =>
      rw [hfs] at h2
      simp at h2
    | cons f0 fs0 =>
      rw [hfs] at h2
      simp only [if_neg (by simp : ¬ (f0 :: fs0 = []))] at h2
      rcases List.mem_cons.mp h2 with hdot | hmem
      · right
        left
        exact hdot
      · right
        right
        exact hf x (by rw [hfs]; exact hmem)

/-- A run of digit characters is absorbed into the current token buffer by
the tokenizer scan, one word-character step at a time. -/
theorem tokLoop_digits (T : List Char) :
    ∀ (ds : List Char), (∀ x ∈ ds, isDigitChar x = true) →
    ∀ (rest : List Char) (i : ℕ) (prev : Option Char) (tokens : List (List Char))
      (current : List Char) (flag : Bool),
    ∃ prev', tokLoop T (ds ++ rest) i prev tokens current flag =
      tokLoop T rest (i + ds.length) prev' tokens (current ++ ds) flag := by
  intro ds
  induction ds with
  | nil =>
    intro _ rest i prev tokens current flag
    exact ⟨prev, by simp⟩
  | cons d ds' ih =>
    intro h rest i prev tokens current flag
    have hd : isDigitChar d = true := h d (by simp)
    obtain ⟨p', hp'⟩ := ih (fun x hx => h x (by simp [hx])) rest (i + 1) (some d) tokens
      (current ++ [d]) flag
    refine ⟨p', ?_⟩
    rw [List.cons_append, tokLoop]
    dsimp only
    rw [if_pos (Or.inl (digit_word d hd))]
    rw [hp']
    have h1 : i + 1 + ds'.length = i + (d :: ds').length := by
      simp only [List.length_cons]
      omega
    rw [h1, ← List.append_cons]

/-- A trailing run of digit characters is absorbed into the buffer and then
flushed as the final token. -/
theorem tokLoop_digits_end (T : List Char) :
    ∀ (ds : List Char), (∀ x ∈ ds, isDigitChar x = true) →
    ∀ (i : ℕ) (prev : Option Char) (tokens : List (List Char))
      (current : List Char) (flag : Bool), current ++ ds ≠ [] →
    tokLoop T ds i prev tokens current flag =
      .ok (List.reverse ((current ++ ds) :: tokens)) := by
  intro ds
  induction ds with
  | nil =>
    intro _ i prev tokens current flag hne
    rw [List.append_nil] at hne
    rw [tokLoop, if_neg hne, List.append_nil]
  | cons d ds' ih =>
    intro h i prev tokens current flag _
    have hd : isDigitChar d = true := h d (by simp)
    rw [tokLoop]
    dsimp only
    rw [if_pos (Or.inl (digit_word d hd))]
    rw [ih (fun x hx => h x (by simp [hx])) (i + 1) (some d) tokens (current ++ [d]) flag
      (by simp)]
    rw [← List.append_cons]

/-- Tokenizing a numeric literal yields that literal as the single token. -/
theorem tokenize_lit (neg : Bool) (ds fs : List Char)
    (hds : ds ≠ []) (hd : ∀ x ∈ ds, isDigitChar x = true)
    (hf : ∀ x ∈ fs, isDigitChar x = true) :
    tokenize (String.mk (litChars neg ds fs)) = .ok [litChars neg ds fs] := by
  have hnws : ∀ x ∈ litChars neg ds fs, isWsChar x = false := by
    intro x hx
    rcases litChars_mem neg ds fs hd hf x hx with h1 | h1 | h1
    · rw [h1]
      rfl
    · rw [h1]
      rfl
    · exact digit_not_ws x h1
  cases ds with
  | nil => exact absurd rfl hds
  | cons d0 ds0 =>
  have hd0 : isDigitChar d0 = true := hd d0 (by simp)
  unfold tokenize
  rw [show (String.mk (litChars neg (d0 :: ds0) fs)).data = litChars neg (d0 :: ds0) fs
    from rfl]
  rw [trimCollapse_of_no_ws _ hnws]
  cases neg with
  | false =>
    cases fs with
    | nil =>
      rw [show litChars false (d0 :: ds0) [] = (d0 :: ds0) ++ [] from rfl]
      rw [tokLoop_digits_end _ ((d0 :: ds0) ++ [])
        (by intro x hx; exact hd x (by simpa using hx)) 0 none [] [] false (by simp)]
      simp
    | cons f0 fs0 =>
      rw [show litChars false (d0 :: ds0) (f0 :: fs0) =
        (d0 :: ds0) ++ ('.' :: (f0 :: fs0)) from rfl]
      obtain ⟨p1, h1⟩ := tokLoop_digits ((d0 :: ds0) ++ ('.' :: (f0 :: fs0)))
        (d0 :: ds0) hd ('.' :: (f0 :: fs0)) 0 none [] [] false
      rw [h1]
      rw [tokLoop]
      dsimp only
      rw [if_neg (by
        rintro (hbad | ⟨hbad, -⟩)
        · exact absurd hbad (by decide)
        · exact absurd hbad (by decide))]
      rw [if_pos rfl]
      rw [if_neg (by
        rintro ⟨-, hbad⟩
        exact absurd hbad (by decide))]
      rw [tokLoop_digits_end _ (f0 :: fs0) hf _ (some '.') [] (([] ++ (d0 :: ds0)) ++ ['.'])
        true (by simp)]
      simp
  | true =>
    cases fs with
    | nil =>
      rw [show litChars true (d0 :: ds0) [] = '-' :: ((d0 :: ds0) ++ []) from rfl]
      rw [tokLoop]
      dsimp only
      rw [if_pos (Or.inr ⟨rfl, by simp, Or.inl rfl, hd0⟩)]
      rw [tokLoop_digits_end _ ((d0 :: ds0) ++ [])
        (by intro x hx; exact hd x (by simpa using hx)) 1 (some '-') [] ([] ++ ['-']) false
        (by simp)]
      simp
    | cons f0 fs0 =>
      rw [show litChars true (d0 :: ds0) (f0 :: fs0) =
        '-' :: ((d0 :: ds0) ++ ('.' :: (f0 :: fs0))) from rfl]
      rw [tokLoop]
      dsimp only
      rw [if_pos (Or.inr ⟨rfl, by simp, Or.inl rfl, hd0⟩)]
      obtain ⟨p1, h1⟩ := tokLoop_digits ('-' :: ((d0 :: ds0) ++ ('.' :: (f0 :: fs0))))
        (d0 :: ds0) hd ('.' :: (f0 :: fs0)) 1 (some '-') [] ([] ++ ['-']) false
      rw [h1]
      rw [tokLoop]
      dsimp only
      rw [if_neg (by
        rintro (hbad | ⟨hbad, -⟩)
        · exact absurd hbad (by decide)
        · exact absurd hbad (by decide))]
      rw [if_pos rfl]
      rw [if_neg (by
        rintro ⟨-, hbad⟩
        exact absurd hbad (by decide))]
      rw [tokLoop_digits_end _ (f0 :: fs0) hf _ (some '.') []
        ((([] ++ ['-']) ++ (d0 :: ds0)) ++ ['.']) true (by simp)]
      simp

/-- The modelled numeric conversion accepts every literal of the grammar
and yields its decimal denotation. -/
theorem jsNumericL_lit (neg : Bool) (ds fs : List Char)
    (hds : ds ≠ []) (hd : ∀ x ∈ ds, isDigitChar x = true)
    (hf : ∀ x ∈ fs, isDigitChar x = true) :
    jsNumericL (litChars neg ds fs) = some (litVal neg ds fs) := by
  cases ds with
  | nil => exact absurd rfl hds
  | cons d0 ds0 =>
  have hd0 : isDigitChar d0 = true := hd d0 (by simp)
  have hd0m : d0 ≠ '-' := digit_ne_of_toNat d0 '-' hd0 (by decide)
  cases neg with
  | false =>
    cases fs with
    | nil =>
      rw [show litChars false (d0 :: ds0) [] = (d0 :: ds0) ++ [] from rfl,
        List.append_nil]
      unfold jsNumericL
      dsimp only
      rw [if_neg hd0m]
      dsimp only
      rw [(takeWhile_all (d0 :: ds0) hd).1, (takeWhile_all (d0 :: ds0) hd).2]
      dsimp only
      rw [if_neg (by simp : ¬ (d0 :: ds0 = []))]
      unfold litVal
      refine congrArg some ?_
      have hz : (digitsVal ([] : List Char) : ℚ) = 0 := by
        norm_num [digitsVal]
      rw [hz]
      norm_num
    | cons f0 fs0 =>
      rw [show litChars false (d0 :: ds0) (f0 :: fs0) =
        (d0 :: ds0) ++ ('.' :: (f0 :: fs0)) from rfl]
      rw [show ((d0 :: ds0) ++ ('.' :: (f0 :: fs0)) : List Char) =
        d0 :: (ds0 ++ ('.' :: (f0 :: fs0))) from rfl]
      unfold jsNumericL
      dsimp only
      rw [if_neg hd0m]
      dsimp only
      rw [show (d0 :: (ds0 ++ ('.' :: (f0 :: fs0))) : List Char) =
        (d0 :: ds0) ++ ('.' :: (f0 :: fs0)) from rfl]
      rw [(takeWhile_append_stop '.' (f0 :: fs0) (by decide) (d0 :: ds0) hd).1,
        (takeWhile_append_stop '.' (f0 :: fs0) (by decide) (d0 :: ds0) hd).2]
      dsimp only
      rw [if_pos rfl]
      rw [if_pos ⟨by
          rw [List.all_eq_true]
          intro x hx
          exact hf x hx, by simp⟩]
      unfold litVal
      refine congrArg some ?_
      norm_num
  | true =>
    cases fs with
    | nil =>
      rw [show litChars true (d0 :: ds0) [] = '-' :: ((d0 :: ds0) ++ []) from rfl,
        List.append_nil]
      unfold jsNumericL
      dsimp only
      rw [if_pos rfl]
      dsimp only
      rw [(takeWhile_all (d0 :: ds0) hd).1, (takeWhile_all (d0 :: ds0) hd).2]
      dsimp only
      rw [if_neg (by simp : ¬ (d0 :: ds0 = []))]
      unfold litVal
      refine congrArg some ?_
      have hz : (digitsVal ([] : List Char) : ℚ) = 0 := by
        norm_num [digitsVal]
      rw [hz]
      norm_num
    | cons f0 fs0 =>
      rw [show litChars true (d0 :: ds0) (f0 :: fs0) =
        '-' :: ((d0 :: ds0) ++ ('.' :: (f0 :: fs0))) from rfl]
      unfold jsNumericL
      dsimp only
      rw [if_pos rfl]
      dsimp only
      rw [(takeWhile_append_stop '.' (f0 :: fs0) (by decide) (d0 :: ds0) hd).1,
        (takeWhile_append_stop '.' (f0 :: fs0) (by decide) (d0 :: ds0) hd).2]
      dsimp only
      rw [if_pos rfl]
      rw [if_pos ⟨by
          rw [List.all_eq_true]
          intro x hx
          exact hf x hx, by simp⟩]
      unfold litVal
      refine congrArg some ?_
      norm_num

/-- A literal is never one of the single-character special tokens. -/
theorem litChars_ne_single (neg : Bool) (ds fs : List Char)
    (hds : ds ≠ []) (hd : ∀ x ∈ ds, isDigitChar x = true)
    (x : Char) (hx : isDigitChar x = false) :
    litChars neg ds fs ≠ [x] := by
  cases ds with
  | nil => exact absurd rfl hds
  | cons d0 ds0 =>
  have hd0 : isDigitChar d0 = true := hd d0 (by simp)
  cases neg with
  | false =>
    intro heq
    rw [show litChars false (d0 :: ds0) fs =
      d0 :: (ds0 ++ (if fs = [] then [] else '.' :: fs)) from rfl] at heq
    simp only [List.cons.injEq] at heq
    rw [heq.1] at hd0
    rw [hd0] at hx
    exact absurd hx (by simp)
  | true =>
    intro heq
    rw [show litChars true (d0 :: ds0) fs =
      '-' :: (d0 :: (ds0 ++ (if fs = [] then [] else '.' :: fs))) from rfl] at heq
    simp at heq

theorem litChars_not_op (neg : Bool) (ds fs : List Char)
    (hds : ds ≠ []) (hd : ∀ x ∈ ds, isDigitChar x = true) :
    operators (litChars neg ds fs) = none := by
  unfold operators
  rw [if_neg (litChars_ne_single neg ds fs hds hd '+' (by decide)),
    if_neg (litChars_ne_single neg ds fs hds hd '-' (by decide)),
    if_neg (litChars_ne_single neg ds fs hds hd '*' (by decide)),
    if_neg (litChars_ne_single neg ds fs hds hd '/' (by decide))]

/-- The primitive parser maps a numeric literal to a Numeric leaf carrying
its denotation. -/
theorem prim_lit (neg : Bool) (ds fs : List Char)
    (hds : ds ≠ []) (hd : ∀ x ∈ ds, isDigitChar x = true)
    (hf : ∀ x ∈ fs, isDigitChar x = true) :
    expressionForPrimitive (litChars neg ds fs) = .ok (.numerical (litVal neg ds fs)) := by
  have hid : ∀ x ∈ litChars neg ds fs, jsCharToLower x = x := by
    intro x hx
    rcases litChars_mem neg ds fs hd hf x hx with h1 | h1 | h1
    · rw [h1]
      rfl
    · rw [h1]
      rfl
    · exact digit_toLower x h1
  have hlower : (litChars neg ds fs).map jsCharToLower = litChars neg ds fs := by
    have h2 : (litChars neg ds fs).map jsCharToLower = (litChars neg ds fs).map id :=
      List.map_congr_left hid
    rw [h2, List.map_id]
  have hnotd : 'd' ∉ litChars neg ds fs := by
    intro hx
    rcases litChars_mem neg ds fs hd hf 'd' hx with h1 | h1 | h1
    · exact absurd h1 (by decide)
    · exact absurd h1 (by decide)
    · exact absurd h1 (by decide)
  have hcontains : (litChars neg ds fs).contains 'd' = false := by
    simpa using hnotd
  unfold expressionForPrimitive
  dsimp only
  rw [hlower]
  rw [if_neg (by rw [hcontains]; simp)]
  rw [jsNumericL_lit neg ds fs hds hd hf]

/-- A single token that is neither an operator, a parenthesis nor a comma
passes the shunting yard unchanged. -/
theorem sy_single (t : List Char) (hop : operators t = none)
    (hg : t ≠ ['(']) (hg2 : t ≠ [')']) (hc : t ≠ [',']) :
    shuntingYardConversion [t] = .ok [t] := by
  simp [shuntingYardConversion, syLoop, drainOps, isTokenGroupStart, isTokenGroupEnd,
    hop, hg, hg2, hc]

/-- A single primitive token builds to its primitive expression. -/
theorem rpn_single (t : List Char) (e : DiceExpression) (hop : operators t = none)
    (hp : expressionForPrimitive t = .ok e) :
    expressionForRPN none [t] = .ok e := by
  simp [expressionForRPN, rpnLoop, hop, hp]

/-- C8: for every numeric literal (optional minus, digits, optional dot and
digits), `parse` yields a Numeric leaf carrying the denoted number, and
every roll of it returns that number with an empty `diceRolled`. -/
theorem c8_numeric_literal (neg : Bool) (ds fs : List Char)
    (hds : ds ≠ []) (hd : ∀ x ∈ ds, isDigitChar x = true)
    (hf : ∀ x ∈ fs, isDigitChar x = true) :
    parse none (String.mk (litChars neg ds fs)) = .ok (.numerical (litVal neg ds fs)) ∧
    ∀ (g : ℕ → ℚ) (idx : ℕ),
      (rollExpr (.numerical (litVal neg ds fs)) g idx).1.value = litVal neg ds fs ∧
      (rollExpr (.numerical (litVal neg ds fs)) g idx).1.diceRolled = [] := by
  constructor
  · have hop := litChars_not_op neg ds fs hds hd
    have hg : litChars neg ds fs ≠ ['('] := litChars_ne_single neg ds fs hds hd '(' (by decide)
    have hg2 : litChars neg ds fs ≠ [')'] := litChars_ne_single neg ds fs hds hd ')' (by decide)
    have hc : litChars neg ds fs ≠ [','] := litChars_ne_single neg ds fs hds hd ',' (by decide)
    unfold parse
    rw [tokenize_lit neg ds fs hds hd hf]
    dsimp only
    rw [if_neg (by simp : ¬ ([litChars neg ds fs] = []))]
    rw [sy_single _ hop hg hg2 hc]
    dsimp only
    exact rpn_single _ _ hop (prim_lit neg ds fs hds hd hf)
  · intro g idx
    exact ⟨rfl, rfl⟩

/-- C8, witness: the literal `-12.5` parses to the Numeric leaf `-12.5` and
rolls to `-12.5` with no dice. -/
theorem c8_witness :
    ((['1', '2'] : List Char) ≠ [] ∧ (∀ x ∈ (['1', '2'] : List Char), isDigitChar x = true) ∧
      (∀ x ∈ (['5'] : List Char), isDigitChar x = true)) ∧
    (parse none (String.mk (litChars true ['1', '2'] ['5'])) =
        .ok (.numerical (litVal true ['1', '2'] ['5'])) ∧
      ∀ (g : ℕ → ℚ) (idx : ℕ),
        (rollExpr (.numerical (litVal true ['1', '2'] ['5'])) g idx).1.value =
          litVal true ['1', '2'] ['5'] ∧
        (rollExpr (.numerical (litVal true ['1', '2'] ['5'])) g idx).1.diceRolled = []) :=
  ⟨⟨by decide, by decide, by decide⟩,
    c8_numeric_literal true ['1', '2'] ['5'] (by decide) (by decide) (by decide)⟩

/-- C10, witness: rolling `2.5d6` yields `⌈5/2⌉ = 3` die records. -/
theorem c10_witness :
    (1 ≤ (5/2 : ℚ)) ∧
    ((rollExpr (.countedDiceRoll (5/2) 6) (fun _ => 0) 0).1.diceRolled).length =
      (⌈(5/2 : ℚ)⌉).toNat :=
  ⟨by norm_num, c10_fractional_count.2 (5/2) 6 (fun _ => 0) 0 (by norm_num)⟩

end LxsDice
